import Mathlib

/-!
# Verification of the YOLO-OBB video-inference pipeline

Shallow embedding of `src/video_inference.cpp`: the thread-safe queue
(`SafeQueue`, lines 51-86), the three pipeline threads (capture,
processing, writing, lines 133-167) as an interleaving small-step system,
and `main`'s setup/teardown (lines 104-182).

Machine integers (`int frameCount`, `int frameIndex`) are modelled as
`Nat`: they only count frames upward from 0 and overflow is irrelevant to
the claims. `cv::Mat` frames are an opaque type parameter with value
semantics (`frame.clone()` on enqueue gives each queued frame its own
buffer, so copies behave as values).
-/

set_option autoImplicit false

namespace VideoInference

/-! ## The thread-safe queue (`SafeQueue<T>`, lines 51-86)

The C++ object holds `std::queue<T> q`, a mutex, a condition variable and
`bool finished = false`.  The mutex makes every operation atomic, so the
state is just the item list (front = head) and the flag. -/

structure SafeQueue (α : Type) where
  q : List α
  finished : Bool
  deriving Repr, DecidableEq

/-- `enqueue` (lines 57-61): push `t` at the tail, notify one waiter. -/
def SafeQueue.enqueue {α : Type} (s : SafeQueue α) (t : α) : SafeQueue α :=
  ⟨s.q ++ [t], s.finished⟩

/-- `setFinished` (lines 75-79): latch `finished := true`, notify all. -/
def SafeQueue.setFinished {α : Type} (s : SafeQueue α) : SafeQueue α :=
  ⟨s.q, true⟩

/-- Outcome of one evaluation of the `dequeue` body (lines 64-73) under the
lock: either it pops the head and returns `true` (`yields`), or the queue
is empty with `finished` set and it returns `false` (`eos`), or the queue
is empty and not finished and the caller blocks in `c.wait` (`waits`). -/
inductive DequeueOutcome (α : Type) where
  | yields (t : α) (s : SafeQueue α)
  | eos
  | waits
  deriving Repr, DecidableEq

/-- `dequeue` (lines 64-73): `while (q.empty()) { if (finished) return
false; c.wait(lock); }  t = q.front(); q.pop(); return true;`
evaluated atomically at one inspection of the state. -/
def SafeQueue.dequeue {α : Type} (s : SafeQueue α) : DequeueOutcome α :=
  match s.q with
  | t :: rest => .yields t ⟨rest, s.finished⟩
  | [] => if s.finished then .eos else .waits

end VideoInference

namespace VideoInference

/-! ## The capture thread's view of the video source (lines 134-142)

`cv::VideoCapture::read` returns `false` both at end of stream and on a
mid-stream decode/read failure; the capture loop `while (cap.read(frame))`
cannot tell the two apart.  We model one read result explicitly. -/

inductive ReadResult (Frame : Type) where
  | frame (f : Frame)
  | exhausted
  | readError
  deriving Repr, DecidableEq

/-- The frames the capture loop enqueues before `cap.read` first returns
`false` (each one cloned, hence an independent value): it stops at the
first non-`frame` result, whatever its kind. -/
def captureFrames {Frame : Type} : List (ReadResult Frame) → List Frame
  | [] => []
  | .frame f :: rest => f :: captureFrames rest
  | .exhausted :: _ => []
  | .readError :: _ => []

/-- Observable behaviour of the whole capture thread body (lines 134-142)
on a stream of read results: the list of frames enqueued to `frameQueue`,
and how many times `setFinished` is called on it (the call after the loop
runs unconditionally, exactly once). -/
def captureThreadRun {Frame : Type} (s : List (ReadResult Frame)) :
    List Frame × Nat :=
  (captureFrames s, 1)

end VideoInference

namespace VideoInference

/-! ## The pipeline (lines 124-172)

`main` wires `frameQueue : SafeQueue<cv::Mat>` (queue A),
`processedQueue : SafeQueue<pair<int, cv::Mat>>` (queue B) and an atomic
`processingDone` flag (line 130, never touched again), and starts three
threads.  Each loop iteration of each thread is one atomic step of an
interleaving semantics; the scheduler picks which thread steps next.

The external collaborators are opaque: the detector's two calls
`detector.detect(frame)` and `detector.drawBoundingBox(frame, results)`
(lines 150-153) are abstract functions. -/

structure Detector (Frame Detection : Type) where
  detect : Frame → List Detection
  drawBoundingBox : Frame → List Detection → Frame

/-- What the processing thread does to one frame (lines 150-153):
`results = detector.detect(frame); detector.drawBoundingBox(frame,
results)` — the annotated frame it then enqueues. -/
def Detector.transform {Frame Detection : Type}
    (d : Detector Frame Detection) (f : Frame) : Frame :=
  d.drawBoundingBox f (d.detect f)

/-- Global state of a pipeline run.  `src` is the tail of the source not
yet read by `cap.read`; `aItems`/`aFin` are `frameQueue`, `bItems`/`bFin`
are `processedQueue`; `bHist` is the trace of every pair ever enqueued to
`processedQueue` (ghost history used to state the index claims); `sink`
is the trace of `out.write` calls; `processingDone` is the atomic flag of
line 130. -/
structure PState (Frame : Type) where
  src : List Frame
  capDone : Bool
  aItems : List Frame
  aFin : Bool
  frameIndex : Nat
  procDone : Bool
  bItems : List (Nat × Frame)
  bFin : Bool
  bHist : List (Nat × Frame)
  writeDone : Bool
  sink : List Frame
  processingDone : Bool
  deriving Repr, DecidableEq

/-- State at the moment the three threads are started (lines 126-130):
both queues empty and unfinished, `frameIndex = 0`, nothing written,
`processingDone(false)`, the whole source still unread. -/
def initState {Frame : Type} (S : List Frame) : PState Frame :=
  ⟨S, false, [], false, 0, false, [], false, [], false, [], false⟩

/-- The three threads started by `main` (lines 134, 145, 162). -/
inductive Tid where
  | capture
  | processing
  | writing
  deriving Repr, DecidableEq

/-- One iteration of the capture thread (lines 134-142): `cap.read`
succeeds while source frames remain and the frame is cloned and enqueued
to `frameQueue`; on the first failed read the loop exits and
`frameQueue.setFinished()` runs, ending the thread.  `none` once the
thread has returned. -/
def captureStep {Frame : Type} (st : PState Frame) : Option (PState Frame) :=
  if st.capDone then none else
  match st.src with
  | f :: rest => some { st with src := rest, aItems := st.aItems ++ [f] }
  | [] => some { st with aFin := true, capDone := true }

/-- One iteration of the processing thread (lines 145-159): dequeue from
`frameQueue`; on an item, detect, draw, enqueue
`(frameIndex++, frame)` to `processedQueue`; on end-of-stream call
`processedQueue.setFinished()` and return.  `none` when the thread has
returned or is blocked in `dequeue`'s wait. -/
def processingStep {Frame Detection : Type} (d : Detector Frame Detection)
    (st : PState Frame) : Option (PState Frame) :=
  if st.procDone then none else
  match st.aItems with
  | f :: rest =>
    some { st with
           aItems := rest,
           bItems := st.bItems ++ [(st.frameIndex, d.transform f)],
           bHist := st.bHist ++ [(st.frameIndex, d.transform f)],
           frameIndex := st.frameIndex + 1 }
  | [] => if st.aFin then some { st with bFin := true, procDone := true }
          else none

/-- One iteration of the writing thread (lines 162-167): dequeue from
`processedQueue`; on an item `processedFrame`, call
`out.write(processedFrame.second)`; on end-of-stream return.  `none`
when the thread has returned or is blocked in `dequeue`'s wait. -/
def writingStep {Frame : Type} (st : PState Frame) : Option (PState Frame) :=
  if st.writeDone then none else
  match st.bItems with
  | pr :: rest => some { st with bItems := rest, sink := st.sink ++ [pr.2] }
  | [] => if st.bFin then some { st with writeDone := true }
          else none

/-- Step of the scheduled thread; `none` when that thread cannot move. -/
def step {Frame Detection : Type} (d : Detector Frame Detection)
    (st : PState Frame) : Tid → Option (PState Frame)
  | .capture => captureStep st
  | .processing => processingStep d st
  | .writing => writingStep st

/-- Run the pipeline under a schedule: at each tick the named thread
takes its next atomic step if it can, otherwise the state is unchanged
(the thread is blocked or already finished). -/
def run {Frame Detection : Type} (d : Detector Frame Detection)
    (st : PState Frame) : List Tid → PState Frame
  | [] => st
  | t :: ts => run d ((step d st t).getD st) ts

/-- All three threads have returned, so `main`'s three `join`s (lines
170-172) have unblocked. -/
def allDone {Frame : Type} (st : PState Frame) : Bool :=
  st.capDone && st.procDone && st.writeDone

/-- No thread can take a step in `st`. -/
def isStuck {Frame Detection : Type} (d : Detector Frame Detection)
    (st : PState Frame) : Bool :=
  (captureStep st).isNone && (processingStep d st).isNone
    && (writingStep st).isNone

/-- The pairs `(k, l[k])`, `(k+1, l[k+1])`, ... — the trace of pairs the
processing thread enqueues when it consumes `l` starting from counter
value `k`. -/
def tagFrom {α : Type} (k : Nat) : List α → List (Nat × α)
  | [] => []
  | a :: as => (k, a) :: tagFrom (k + 1) as

end VideoInference

namespace VideoInference

/-! ## The pipeline invariant

Written with the processing counter `frameIndex` as the number `p` of
frames processed so far, `frameIndex + aItems.length` as the number `r`
of frames read so far, and `sink.length` as the number `w` of frames
written so far. -/

structure Inv {Frame Detection : Type} (d : Detector Frame Detection)
    (S : List Frame) (st : PState Frame) : Prop where
  hr : st.frameIndex + st.aItems.length ≤ S.length
  hw : st.sink.length ≤ st.frameIndex
  hsrc : st.src = S.drop (st.frameIndex + st.aItems.length)
  ha : S.take (st.frameIndex + st.aItems.length)
        = S.take st.frameIndex ++ st.aItems
  hcap : st.aFin = st.capDone
  hcapr : st.capDone = true → st.frameIndex + st.aItems.length = S.length
  hproc : st.procDone = true → st.capDone = true ∧ st.aItems = []
  hbfin : st.bFin = st.procDone
  hhist : st.bHist = tagFrom 0 ((S.take st.frameIndex).map d.transform)
  hb : st.bItems = st.bHist.drop st.sink.length
  hwrite : st.writeDone = true → st.procDone = true ∧ st.bItems = []
  hsink : st.sink = (S.take st.sink.length).map d.transform
  hflag : st.processingDone = false

end VideoInference

namespace VideoInference

/-- The canonical complete schedule: run the capture loop to completion,
then the processing loop, then the writing loop.  `seqSched_allDone`
below proves it drives the pipeline to the all-joined state, so it can
stand in for `main`'s three `join`s (lines 170-172) when embedding
`main` as a function. -/
def seqSched (n : Nat) : List Tid :=
  List.replicate (n + 1) Tid.capture ++ List.replicate (n + 1) Tid.processing
    ++ List.replicate (n + 1) Tid.writing

/-- The external conditions `main` meets: whether `cap.isOpened()` (line
106), whether `out.isOpened()` (line 119), and the frames the source
will deliver. -/
structure VideoEnv (Frame : Type) where
  sourceOpens : Bool
  sinkOpens : Bool
  frames : List Frame

/-- Observable result of `main` (lines 88-182): its return value, how
many frames were read from the source, the trace of `out.write` calls,
and whether the three stage threads were ever started. -/
structure MainResult (Frame : Type) where
  exitCode : Int
  framesRead : Nat
  sinkWrites : List Frame
  stagesStarted : Bool
  deriving Repr, DecidableEq

/-- `main` (lines 104-182): return `-1` before any thread starts if the
capture cannot be opened (lines 106-109) or the writer cannot be opened
(lines 119-122); otherwise start the three threads, join them, release
resources and return `0`.  The joined final state is embedded via the
canonical schedule `seqSched`, which provably reaches `allDone`
(`seqSched_allDone`); by the pipeline invariant every completing
schedule yields the same sink trace. -/
def runMain {Frame Detection : Type} (d : Detector Frame Detection)
    (env : VideoEnv Frame) : MainResult Frame :=
  if env.sourceOpens = false then ⟨-1, 0, [], false⟩
  else if env.sinkOpens = false then ⟨-1, 0, [], false⟩
  else
    ⟨0, env.frames.length,
     (run d (initState env.frames) (seqSched env.frames.length)).sink, true⟩

/-- Concrete detector on `Frame := Nat` for evaluating the model:
`detect` reports one detection per frame and `drawBoundingBox` bumps the
frame value, so `transform f = f + 1` — injective and visibly different
from the identity. -/
def dNat : Detector Nat Nat := ⟨fun f => [f], fun f ds => f + ds.length⟩

end VideoInference

namespace VideoInference

/-! ## Claim theorems about the queue alone -/

/-- C2: `dequeue` pops the head (FIFO) whenever the queue is non-empty,
even if `finished` is already true; it returns end-of-stream exactly when
the queue is empty and `finished` is true, never while items remain. -/
theorem dequeue_head_or_eos {α : Type} (s : SafeQueue α) :
    (∀ t rest, s.q = t :: rest →
      s.dequeue = DequeueOutcome.yields t ⟨rest, s.finished⟩) ∧
    (s.dequeue = DequeueOutcome.eos ↔ s.q = [] ∧ s.finished = true) := by
  obtain ⟨q, fin⟩ := s
  constructor
  · intro t rest h
    simp only at h
    subst h
    rfl
  · cases q with
    | nil =>
      cases fin <;> simp [SafeQueue.dequeue]
    | cons t rest =>
      simp [SafeQueue.dequeue]

/-- Witness for C2 at a concrete queue: `⟨[3, 5], true⟩` yields its head
`3` (not end-of-stream) although `finished` is already set, and an empty
finished queue reports end-of-stream. -/
theorem dequeue_head_or_eos_witness :
    (SafeQueue.mk [3, 5] true).dequeue = DequeueOutcome.yields 3 ⟨[5], true⟩ ∧
    (SafeQueue.mk ([] : List Nat) true).dequeue = DequeueOutcome.eos :=
  ⟨(dequeue_head_or_eos ⟨[3, 5], true⟩).1 3 [5] rfl,
   (dequeue_head_or_eos ⟨[], true⟩).2.mpr ⟨rfl, rfl⟩⟩

/-- C5: once `setFinished` has run, `dequeue` on an empty queue returns
end-of-stream at once and never reaches `c.wait`. -/
theorem dequeue_after_setFinished_empty {α : Type} (s : SafeQueue α)
    (h : s.q = []) :
    s.setFinished.dequeue = DequeueOutcome.eos ∧
    s.setFinished.dequeue ≠ DequeueOutcome.waits := by
  obtain ⟨q, fin⟩ := s
  simp only at h
  subst h
  exact ⟨rfl, by simp [SafeQueue.setFinished, SafeQueue.dequeue]⟩

/-- Witness for C5 on the concrete empty, unfinished queue. -/
theorem dequeue_after_setFinished_empty_witness :
    (SafeQueue.mk ([] : List Nat) false).setFinished.dequeue
        = DequeueOutcome.eos ∧
    (SafeQueue.mk ([] : List Nat) false).setFinished.dequeue
        ≠ DequeueOutcome.waits :=
  dequeue_after_setFinished_empty ⟨[], false⟩ rfl

/-- C6: `setFinished` is idempotent — any `n ≥ 1` repetitions equal one
call — the flag it leaves is `true`, and no queue operation ever resets
the flag: `enqueue` and a successful `dequeue` leave it unchanged. -/
theorem setFinished_idempotent {α : Type} (s : SafeQueue α) (n : Nat)
    (h : 1 ≤ n) :
    Nat.iterate SafeQueue.setFinished n s = s.setFinished ∧
    s.setFinished.finished = true ∧
    (∀ t : α, (s.enqueue t).finished = s.finished) ∧
    (∀ (t : α) (s' : SafeQueue α),
      s.dequeue = DequeueOutcome.yields t s' → s'.finished = s.finished) := by
  refine ⟨?_, rfl, fun t => rfl, ?_⟩
  · obtain ⟨m, rfl⟩ := Nat.exists_eq_add_of_le h
    clear h
    induction m with
    | zero => rfl
    | succ k ih =>
      have hstep : 1 + (k + 1) = (1 + k) + 1 := by omega
      rw [hstep, Function.iterate_succ_apply', ih]
      rfl
  · intro t s' hy
    obtain ⟨q, fin⟩ := s
    cases q with
    | nil =>
      cases fin <;> simp [SafeQueue.dequeue] at hy
    | cons a rest =>
      simp only [SafeQueue.dequeue] at hy
      cases hy
      rfl

/-- Witness for C6: three consecutive `setFinished` calls on a concrete
queue coincide with a single call. -/
theorem setFinished_idempotent_witness :
    Nat.iterate SafeQueue.setFinished 3 (SafeQueue.mk [7] false)
      = (SafeQueue.mk [7] false).setFinished ∧
    (SafeQueue.mk [7] false).setFinished.finished = true :=
  ⟨(setFinished_idempotent ⟨[7], false⟩ 3 (by decide)).1,
   (setFinished_idempotent ⟨[7], false⟩ 3 (by decide)).2.1⟩

/-- C10: `enqueue` after `setFinished` still appends to the tail, and a
`dequeue` on the resulting non-empty queue yields an item — the enqueued
one when the queue was empty — rather than end-of-stream. -/
theorem enqueue_after_setFinished {α : Type} (s : SafeQueue α) (t : α) :
    ((s.setFinished.enqueue t).q = s.q ++ [t]) ∧
    (s.q = [] →
      (s.setFinished.enqueue t).dequeue
        = DequeueOutcome.yields t ⟨[], true⟩) ∧
    (s.setFinished.enqueue t).dequeue ≠ DequeueOutcome.eos := by
  refine ⟨rfl, ?_, ?_⟩
  · intro h
    obtain ⟨q, fin⟩ := s
    simp only at h
    subst h
    rfl
  · obtain ⟨q, fin⟩ := s
    cases q <;> simp [SafeQueue.setFinished, SafeQueue.enqueue, SafeQueue.dequeue]

/-- Witness for C10 on the concrete empty queue with item `9`. -/
theorem enqueue_after_setFinished_witness :
    ((SafeQueue.mk ([] : List Nat) false).setFinished.enqueue 9).q = [9] ∧
    ((SafeQueue.mk ([] : List Nat) false).setFinished.enqueue 9).dequeue
      = DequeueOutcome.yields 9 ⟨[], true⟩ :=
  ⟨(enqueue_after_setFinished ⟨[], false⟩ 9).1,
   (enqueue_after_setFinished ⟨[], false⟩ 9).2.1 rfl⟩

/-- C7: after the same prefix of good frames, a mid-stream read error is
observationally identical to clean exhaustion: the capture thread stops
reading, enqueues exactly the prefix, and calls `setFinished` exactly
once in both cases. -/
theorem captureThread_error_eq_exhaustion {Frame : Type} (fs : List Frame)
    (rest₁ rest₂ : List (ReadResult Frame)) :
    captureThreadRun (fs.map ReadResult.frame ++ ReadResult.exhausted :: rest₁)
      = captureThreadRun
          (fs.map ReadResult.frame ++ ReadResult.readError :: rest₂) ∧
    captureThreadRun (fs.map ReadResult.frame ++ ReadResult.exhausted :: rest₁)
      = (fs, 1) := by
  have hexh : ∀ (l : List Frame) (r : List (ReadResult Frame)),
      captureFrames (l.map ReadResult.frame ++ ReadResult.exhausted :: r) = l := by
    intro l r
    induction l with
    | nil => rfl
    | cons f tl ih =>
      simp only [List.map_cons, List.cons_append, captureFrames, List.append_eq]
      rw [ih]
  have herr : ∀ (l : List Frame) (r : List (ReadResult Frame)),
      captureFrames (l.map ReadResult.frame ++ ReadResult.readError :: r) = l := by
    intro l r
    induction l with
    | nil => rfl
    | cons f tl ih =>
      simp only [List.map_cons, List.cons_append, captureFrames, List.append_eq]
      rw [ih]
  unfold captureThreadRun
  rw [hexh fs rest₁, herr fs rest₂]
  exact ⟨rfl, rfl⟩

end VideoInference

namespace VideoInference

/-! ## Helper lemmas about `tagFrom` and list slicing -/

theorem tagFrom_length {α : Type} (k : Nat) (l : List α) :
    (tagFrom k l).length = l.length := by
  induction l generalizing k with
  | nil => rfl
  | cons a as ih => simp [tagFrom, ih]

theorem tagFrom_append {α : Type} (k : Nat) (l₁ l₂ : List α) :
    tagFrom k (l₁ ++ l₂) = tagFrom k l₁ ++ tagFrom (k + l₁.length) l₂ := by
  induction l₁ generalizing k with
  | nil => simp [tagFrom]
  | cons a as ih =>
    simp only [List.cons_append, tagFrom, List.append_eq, ih, List.length_cons]
    have : k + 1 + as.length = k + (as.length + 1) := by omega
    rw [this]

theorem tagFrom_map_snd {α : Type} (k : Nat) (l : List α) :
    (tagFrom k l).map Prod.snd = l := by
  induction l generalizing k with
  | nil => rfl
  | cons a as ih => simp [tagFrom, ih]

theorem tagFrom_get_fst {α : Type} (k : Nat) (l : List α) (i : Nat)
    (h : i < (tagFrom k l).length) :
    ((tagFrom k l).get ⟨i, h⟩).fst = k + i := by
  induction l generalizing k i with
  | nil => simp [tagFrom] at h
  | cons a as ih =>
    cases i with
    | zero => simp [tagFrom]
    | succ j =>
      have hj : j < (tagFrom (k + 1) as).length := by
        simpa [tagFrom] using h
      have := ih (k + 1) j hj
      simp only [tagFrom, List.get_cons_succ]
      rw [this]
      omega

theorem take_succ_of_drop_cons {α : Type} {l : List α} {n : Nat} {a : α}
    {rest : List α} (h : l.drop n = a :: rest) :
    l.take (n + 1) = l.take n ++ [a] := by
  induction n generalizing l with
  | zero =>
    simp only [List.drop_zero] at h
    subst h
    rfl
  | succ m ih =>
    cases l with
    | nil => simp at h
    | cons x xs =>
      simp only [List.drop_succ_cons] at h
      simp only [List.take_succ_cons, ih h]
      rfl

theorem drop_succ_of_drop_cons {α : Type} {l : List α} {n : Nat} {a : α}
    {rest : List α} (h : l.drop n = a :: rest) :
    l.drop (n + 1) = rest := by
  induction n generalizing l with
  | zero =>
    simp only [List.drop_zero] at h
    subst h
    rfl
  | succ m ih =>
    cases l with
    | nil => simp at h
    | cons x xs =>
      simp only [List.drop_succ_cons] at h ⊢
      exact ih h

theorem lt_length_of_drop_cons {α : Type} {l : List α} {n : Nat} {a : α}
    {rest : List α} (h : l.drop n = a :: rest) : n < l.length := by
  by_contra hge
  rw [List.drop_eq_nil_iff.mpr (by omega)] at h
  exact List.noConfusion h

theorem take_mid {α : Type} (S : List α) (p : Nat) (f : α) (rest : List α)
    (hp : p ≤ S.length)
    (h : S.take (p + (rest.length + 1)) = S.take p ++ f :: rest) :
    S.take (p + 1) = S.take p ++ [f] := by
  have h1 : (S.take p).length = p := by
    rw [List.length_take]
    omega
  have h2 : S.take (p + 1) = (S.take (p + (rest.length + 1))).take (p + 1) := by
    rw [List.take_take]
    congr 1
    omega
  rw [h2, h, List.take_append_eq_append_take, h1, List.take_take]
  have h3 : min (p + 1) p = p := by omega
  have h4 : p + 1 - p = 1 := by omega
  rw [h3, h4]
  rfl
theorem inv_initState {Frame Detection : Type} (d : Detector Frame Detection)
    (S : List Frame) : Inv d S (initState S) := by
  refine ⟨?_, ?_, ?_, ?_, ?_, ?_, ?_, ?_, ?_, ?_, ?_, ?_, ?_⟩ <;>
    simp [initState, tagFrom]

end VideoInference

namespace VideoInference

/-! ## Preservation of the invariant by every thread step -/

theorem inv_captureStep {Frame Detection : Type} (d : Detector Frame Detection)
    (S : List Frame) {st st' : PState Frame}
    (hinv : Inv d S st) (hstep : captureStep st = some st') : Inv d S st' := by
  obtain ⟨src, capD, aItems, aFin, p, procD, bItems, bFin, bHist, writeD,
    sink, flag⟩ := st
  obtain ⟨hr, hw, hsrc, ha, hcap, hcapr, hproc, hbfin, hhist, hb, hwrite,
    hsink, hflag⟩ := hinv
  simp only at hr hw hsrc ha hcap hcapr hproc hbfin hhist hb hwrite hsink hflag
  unfold captureStep at hstep
  dsimp only at hstep
  cases capD with
  | true => simp at hstep
  | false =>
    simp only [Bool.false_eq_true, if_false] at hstep
    cases src with
    | nil =>
      injection hstep with h
      subst h
      have hrS : p + aItems.length = S.length := by
        have := List.drop_eq_nil_iff.mp hsrc.symm
        omega
      refine ⟨hr, hw, hsrc, ha, rfl, fun _ => hrS, ?_, hbfin, hhist, hb,
        hwrite, hsink, hflag⟩
      intro h
      exact ⟨rfl, (hproc h).2⟩
    | cons f rest₀ =>
      injection hstep with h
      subst h
      have hdrop : S.drop (p + aItems.length) = f :: rest₀ := hsrc.symm
      have hlt : p + aItems.length < S.length := lt_length_of_drop_cons hdrop
      have hlen : (aItems ++ [f]).length = aItems.length + 1 := by simp
      refine ⟨?_, hw, ?_, ?_, hcap, ?_, ?_, hbfin, hhist, hb, hwrite,
        hsink, hflag⟩
      · simp only [hlen]
        omega
      · simp only [hlen]
        exact (drop_succ_of_drop_cons hdrop).symm
      · simp only [hlen]
        show S.take (p + aItems.length + 1) = S.take p ++ (aItems ++ [f])
        rw [take_succ_of_drop_cons hdrop, ha, List.append_assoc]
      · intro h
        exact absurd h (by simp)
      · intro h
        exact absurd (hproc h).1 (by simp)

theorem inv_processingStep {Frame Detection : Type}
    (d : Detector Frame Detection) (S : List Frame) {st st' : PState Frame}
    (hinv : Inv d S st) (hstep : processingStep d st = some st') :
    Inv d S st' := by
  obtain ⟨src, capD, aItems, aFin, p, procD, bItems, bFin, bHist, writeD,
    sink, flag⟩ := st
  obtain ⟨hr, hw, hsrc, ha, hcap, hcapr, hproc, hbfin, hhist, hb, hwrite,
    hsink, hflag⟩ := hinv
  simp only at hr hw hsrc ha hcap hcapr hproc hbfin hhist hb hwrite hsink hflag
  unfold processingStep at hstep
  dsimp only at hstep
  cases procD with
  | true => simp at hstep
  | false =>
    simp only [Bool.false_eq_true, if_false] at hstep
    cases aItems with
    | nil =>
      cases aFin with
      | false => simp at hstep
      | true =>
        simp only [if_true] at hstep
        injection hstep with h
        subst h
        refine ⟨hr, hw, hsrc, ha, hcap, hcapr, fun _ => ⟨hcap.symm, rfl⟩,
          rfl, hhist, hb, ?_, hsink, hflag⟩
        intro h
        exact absurd (hwrite h).1 (by simp)
    | cons f rest₁ =>
      injection hstep with h
      subst h
      have hlen : (f :: rest₁).length = rest₁.length + 1 := by simp
      rw [hlen] at hr hsrc ha hcapr
      have hpS : p ≤ S.length := by omega
      have hTake1 : S.take (p + 1) = S.take p ++ [f] :=
        take_mid S p f rest₁ hpS ha
      have hLenTakeMap :
          ((S.take p).map d.transform).length = p := by
        rw [List.length_map, List.length_take]
        omega
      have hHistLen : bHist.length = p := by
        rw [hhist, tagFrom_length, hLenTakeMap]
      refine ⟨?_, ?_, ?_, ?_, hcap, ?_, ?_, hbfin, ?_, ?_, ?_, hsink, hflag⟩
      · simp only
        omega
      · simp only
        omega
      · simp only
        have harith : p + 1 + rest₁.length = p + (rest₁.length + 1) := by omega
        rw [harith]
        exact hsrc
      · simp only
        have harith : p + 1 + rest₁.length = p + (rest₁.length + 1) := by omega
        rw [harith, ha, hTake1, List.append_assoc]
        rfl
      · simp only
        intro h
        have := hcapr h
        omega
      · intro h
        exact absurd h (by simp)
      · simp only
        rw [hTake1, List.map_append, tagFrom_append, hLenTakeMap, hhist]
        simp [Detector.transform, tagFrom]
      · simp only
        rw [List.drop_append_eq_append_drop, hHistLen,
          Nat.sub_eq_zero_of_le hw, List.drop_zero, hb]
      · intro h
        exact absurd (hwrite h).1 (by simp)

theorem inv_writingStep {Frame Detection : Type}
    (d : Detector Frame Detection) (S : List Frame) {st st' : PState Frame}
    (hinv : Inv d S st) (hstep : writingStep st = some st') : Inv d S st' := by
  obtain ⟨src, capD, aItems, aFin, p, procD, bItems, bFin, bHist, writeD,
    sink, flag⟩ := st
  obtain ⟨hr, hw, hsrc, ha, hcap, hcapr, hproc, hbfin, hhist, hb, hwrite,
    hsink, hflag⟩ := hinv
  simp only at hr hw hsrc ha hcap hcapr hproc hbfin hhist hb hwrite hsink hflag
  unfold writingStep at hstep
  dsimp only at hstep
  cases writeD with
  | true => simp at hstep
  | false =>
    simp only [Bool.false_eq_true, if_false] at hstep
    cases bItems with
    | nil =>
      cases bFin with
      | false => simp at hstep
      | true =>
        simp only [if_true] at hstep
        injection hstep with h
        subst h
        exact ⟨hr, hw, hsrc, ha, hcap, hcapr, hproc, hbfin, hhist, hb,
          fun _ => ⟨hbfin.symm, rfl⟩, hsink, hflag⟩
    | cons pr rest₂ =>
      injection hstep with h
      subst h
      have hpS : p ≤ S.length := by omega
      have hLenTakeMap :
          ((S.take p).map d.transform).length = p := by
        rw [List.length_map, List.length_take]
        omega
      have hHistLen : bHist.length = p := by
        rw [hhist, tagFrom_length, hLenTakeMap]
      have hdropHist : bHist.drop sink.length = pr :: rest₂ := hb.symm
      have hwlt : sink.length < p := by
        have := lt_length_of_drop_cons hdropHist
        omega
      have hmapsnd : bHist.map Prod.snd = (S.take p).map d.transform := by
        rw [hhist, tagFrom_map_snd]
      have hdropL :
          ((S.take p).map d.transform).drop sink.length
            = pr.2 :: rest₂.map Prod.snd := by
        rw [← hmapsnd, ← List.map_drop, hdropHist]
        rfl
      have hTakeL :
          ((S.take p).map d.transform).take (sink.length + 1)
            = ((S.take p).map d.transform).take sink.length ++ [pr.2] :=
        take_succ_of_drop_cons hdropL
      have hcut : ∀ m : Nat, m ≤ p →
          ((S.take p).map d.transform).take m
            = (S.take m).map d.transform := by
        intro m hm
        rw [← List.map_take, List.take_take]
        congr 2
        omega
      have hlen : (sink ++ [pr.2]).length = sink.length + 1 := by simp
      refine ⟨hr, ?_, hsrc, ha, hcap, hcapr, hproc, hbfin, hhist, ?_, ?_,
        ?_, hflag⟩
      · simp only [hlen]
        omega
      · simp only [hlen]
        exact (drop_succ_of_drop_cons hdropHist).symm
      · intro h
        exact absurd h (by simp)
      · simp only [hlen]
        rw [← hcut (sink.length + 1) (by omega), hTakeL,
          hcut sink.length (by omega), ← hsink]

end VideoInference

namespace VideoInference

theorem inv_step {Frame Detection : Type} (d : Detector Frame Detection)
    (S : List Frame) {st st' : PState Frame} (t : Tid)
    (hinv : Inv d S st) (hstep : step d st t = some st') : Inv d S st' := by
  cases t with
  | capture => exact inv_captureStep d S hinv hstep
  | processing => exact inv_processingStep d S hinv hstep
  | writing => exact inv_writingStep d S hinv hstep

theorem inv_run {Frame Detection : Type} (d : Detector Frame Detection)
    (S : List Frame) (ts : List Tid) :
    ∀ st : PState Frame, Inv d S st → Inv d S (run d st ts) := by
  induction ts with
  | nil => intro st hinv; exact hinv
  | cons t ts ih =>
    intro st hinv
    show Inv d S (run d ((step d st t).getD st) ts)
    cases h : step d st t with
    | none => simpa [h] using ih st hinv
    | some st' =>
      simp only [h, Option.getD_some]
      exact ih st' (inv_step d S t hinv h)

/-- No deadlock: in any invariant state where some thread has not yet
returned, some thread can take a step; equivalently, a fully stuck state
has all three threads finished. -/
theorem allDone_of_isStuck {Frame Detection : Type}
    (d : Detector Frame Detection) (S : List Frame) {st : PState Frame}
    (hinv : Inv d S st) (hstuck : isStuck d st = true) : allDone st = true := by
  obtain ⟨src, capD, aItems, aFin, p, procD, bItems, bFin, bHist, writeD,
    sink, flag⟩ := st
  obtain ⟨hr, hw, hsrc, ha, hcap, hcapr, hproc, hbfin, hhist, hb, hwrite,
    hsink, hflag⟩ := hinv
  simp only at hcap hbfin
  simp only [isStuck, Bool.and_eq_true, Option.isNone_iff_eq_none] at hstuck
  obtain ⟨⟨h1, h2⟩, h3⟩ := hstuck
  cases capD with
  | false => cases src <;> simp [captureStep] at h1
  | true =>
    subst hcap
    cases procD with
    | false => cases aItems <;> simp [processingStep] at h2
    | true =>
      subst hbfin
      cases writeD with
      | false => cases bItems <;> simp [writingStep] at h3
      | true => rfl

/-- In any invariant state with all three threads finished, the sink
holds exactly the transformed source frames in order, both queues are
latched finished, and the processing counter equals the source length. -/
theorem finalState_of_allDone {Frame Detection : Type}
    (d : Detector Frame Detection) (S : List Frame) {st : PState Frame}
    (hinv : Inv d S st) (hdone : allDone st = true) :
    st.sink = S.map d.transform ∧ st.aFin = true ∧ st.bFin = true ∧
      st.frameIndex = S.length ∧ st.sink.length = S.length := by
  obtain ⟨src, capD, aItems, aFin, p, procD, bItems, bFin, bHist, writeD,
    sink, flag⟩ := st
  obtain ⟨hr, hw, hsrc, ha, hcap, hcapr, hproc, hbfin, hhist, hb, hwrite,
    hsink, hflag⟩ := hinv
  simp only [allDone, Bool.and_eq_true] at hdone
  obtain ⟨⟨hc, hp⟩, hwd⟩ := hdone
  simp only at *
  subst hc hp hwd
  obtain ⟨-, hbempty⟩ := hwrite rfl
  obtain ⟨-, haempty⟩ := hproc rfl
  subst haempty
  have hpS : p = S.length := by
    have := hcapr rfl
    simp at this
    omega
  have hHistLen : bHist.length = p := by
    rw [hhist, tagFrom_length, List.length_map, List.length_take]
    omega
  have h0 : List.drop sink.length bHist = [] := by
    rw [← hb, hbempty]
  have hle := List.drop_eq_nil_iff.mp h0
  have hwS : sink.length = S.length := by omega
  refine ⟨?_, hcap, hbfin, hpS, hwS⟩
  rw [hsink, hwS, List.take_length]

end VideoInference

namespace VideoInference

/-! ## The canonical schedule completes -/

theorem run_append {Frame Detection : Type} (d : Detector Frame Detection)
    (ts₁ ts₂ : List Tid) :
    ∀ st : PState Frame, run d st (ts₁ ++ ts₂) = run d (run d st ts₁) ts₂ := by
  induction ts₁ with
  | nil => intro st; rfl
  | cons t ts ih =>
    intro st
    show run d ((step d st t).getD st) (ts ++ ts₂) = _
    exact ih _

theorem run_capture_all {Frame Detection : Type} (d : Detector Frame Detection) :
    ∀ (l : List Frame) (st : PState Frame), st.src = l → st.capDone = false →
      run d st (List.replicate (l.length + 1) Tid.capture)
        = { st with src := [], aItems := st.aItems ++ l,
                    aFin := true, capDone := true } := by
  intro l
  induction l with
  | nil =>
    intro st h1 h2
    obtain ⟨src, capD, aItems, aFin, p, procD, bItems, bFin, bHist, writeD,
      sink, flag⟩ := st
    simp only at h1 h2
    subst h1
    subst h2
    simp [run, step, captureStep]
  | cons f rest ih =>
    intro st h1 h2
    obtain ⟨src, capD, aItems, aFin, p, procD, bItems, bFin, bHist, writeD,
      sink, flag⟩ := st
    simp only at h1 h2
    subst h1
    subst h2
    have hstep1 :
        run d ⟨f :: rest, false, aItems, aFin, p, procD, bItems, bFin, bHist,
          writeD, sink, flag⟩
          (List.replicate ((f :: rest).length + 1) Tid.capture)
        = run d ⟨rest, false, aItems ++ [f], aFin, p, procD, bItems, bFin,
            bHist, writeD, sink, flag⟩
          (List.replicate (rest.length + 1) Tid.capture) := by
      simp only [List.length_cons]
      rfl
    rw [hstep1, ih _ rfl rfl]
    simp

theorem run_processing_all {Frame Detection : Type}
    (d : Detector Frame Detection) :
    ∀ (l : List Frame) (st : PState Frame),
      st.aItems = l → st.aFin = true → st.procDone = false →
      run d st (List.replicate (l.length + 1) Tid.processing)
        = { st with aItems := [],
                    frameIndex := st.frameIndex + l.length,
                    bItems := st.bItems
                      ++ tagFrom st.frameIndex (l.map d.transform),
                    bHist := st.bHist
                      ++ tagFrom st.frameIndex (l.map d.transform),
                    bFin := true, procDone := true } := by
  intro l
  induction l with
  | nil =>
    intro st h1 h2 h3
    obtain ⟨src, capD, aItems, aFin, p, procD, bItems, bFin, bHist, writeD,
      sink, flag⟩ := st
    simp only at h1 h2 h3
    subst h1
    subst h2
    subst h3
    simp [run, step, processingStep, tagFrom]
  | cons f rest ih =>
    intro st h1 h2 h3
    obtain ⟨src, capD, aItems, aFin, p, procD, bItems, bFin, bHist, writeD,
      sink, flag⟩ := st
    simp only at h1 h2 h3
    subst h1
    subst h2
    subst h3
    have hstep1 :
        run d ⟨src, capD, f :: rest, true, p, false, bItems, bFin, bHist,
          writeD, sink, flag⟩
          (List.replicate ((f :: rest).length + 1) Tid.processing)
        = run d ⟨src, capD, rest, true, p + 1, false,
            bItems ++ [(p, d.transform f)], bFin,
            bHist ++ [(p, d.transform f)], writeD, sink, flag⟩
          (List.replicate (rest.length + 1) Tid.processing) := by
      simp only [List.length_cons]
      rfl
    rw [hstep1, ih _ rfl rfl rfl]
    simp only [PState.mk.injEq, List.map_cons, tagFrom, List.length_cons,
      List.append_assoc, List.cons_append, List.nil_append, true_and,
      and_true, List.singleton_append]
    omega

theorem run_writing_all {Frame Detection : Type}
    (d : Detector Frame Detection) :
    ∀ (l : List (Nat × Frame)) (st : PState Frame),
      st.bItems = l → st.bFin = true → st.writeDone = false →
      run d st (List.replicate (l.length + 1) Tid.writing)
        = { st with bItems := [], sink := st.sink ++ l.map Prod.snd,
                    writeDone := true } := by
  intro l
  induction l with
  | nil =>
    intro st h1 h2 h3
    obtain ⟨src, capD, aItems, aFin, p, procD, bItems, bFin, bHist, writeD,
      sink, flag⟩ := st
    simp only at h1 h2 h3
    subst h1
    subst h2
    subst h3
    simp [run, step, writingStep]
  | cons pr rest ih =>
    intro st h1 h2 h3
    obtain ⟨src, capD, aItems, aFin, p, procD, bItems, bFin, bHist, writeD,
      sink, flag⟩ := st
    simp only at h1 h2 h3
    subst h1
    subst h2
    subst h3
    have hstep1 :
        run d ⟨src, capD, aItems, aFin, p, procD, pr :: rest, true, bHist,
          false, sink, flag⟩
          (List.replicate ((pr :: rest).length + 1) Tid.writing)
        = run d ⟨src, capD, aItems, aFin, p, procD, rest, true, bHist,
            false, sink ++ [pr.2], flag⟩
          (List.replicate (rest.length + 1) Tid.writing) := by
      simp only [List.length_cons]
      rfl
    rw [hstep1, ih _ rfl rfl rfl]
    simp

/-- The canonical schedule drives the pipeline from the initial state to
the all-joined state: `main`'s joins terminate. -/
theorem seqSched_allDone {Frame Detection : Type}
    (d : Detector Frame Detection) (S : List Frame) :
    allDone (run d (initState S) (seqSched S.length)) = true := by
  have h1 := run_capture_all d S (initState S) rfl rfl
  simp only [initState, List.nil_append] at h1
  rw [seqSched, run_append, run_append]
  simp only [initState]
  rw [h1]
  have h2 := run_processing_all d S
    ⟨[], true, S, true, 0, false, [], false, [], false, [], false⟩ rfl rfl rfl
  simp only [List.nil_append, Nat.zero_add] at h2
  rw [h2]
  have hlen : (tagFrom 0 (S.map d.transform)).length = S.length := by
    rw [tagFrom_length, List.length_map]
  have h3 := run_writing_all d (tagFrom 0 (S.map d.transform))
    ⟨[], true, [], true, S.length, true, tagFrom 0 (S.map d.transform), true,
      tagFrom 0 (S.map d.transform), false, [], false⟩ rfl rfl rfl
  rw [hlen] at h3
  rw [h3]
  rfl

end VideoInference

namespace VideoInference

/-! ## Claim theorems about the pipeline -/

/-- C1: under every schedule that completes (all three threads joined),
the sink trace is exactly the transformed source frames in order: `N`
frames in, `N` writes out, the `i`-th write being the transformed `i`-th
source frame. -/
theorem pipeline_order_preservation (Frame Detection : Type)
    (d : Detector Frame Detection) (S : List Frame) (ts : List Tid)
    (h : allDone (run d (initState S) ts) = true) :
    (run d (initState S) ts).sink = S.map d.transform ∧
    (run d (initState S) ts).sink.length = S.length := by
  have hinv := inv_run d S ts (initState S) (inv_initState d S)
  have hf := finalState_of_allDone d S hinv h
  exact ⟨hf.1, hf.2.2.2.2⟩

/-- Witness for C1: a complete concrete run over three frames writes
exactly their transforms, in order. -/
theorem pipeline_order_preservation_witness :
    allDone (run dNat (initState [10, 20, 30]) (seqSched 3)) = true ∧
    (run dNat (initState [10, 20, 30]) (seqSched 3)).sink
      = [10, 20, 30].map dNat.transform ∧
    (run dNat (initState [10, 20, 30]) (seqSched 3)).sink = [11, 21, 31] :=
  ⟨by decide,
   (pipeline_order_preservation Nat Nat dNat [10, 20, 30] (seqSched 3)
      (by decide)).1,
   by decide⟩

theorem get_fst_of_eq_tagFrom {α : Type} (l : List α)
    (x : List (Nat × α)) (hx : x = tagFrom 0 l) (i : Nat)
    (hi : i < x.length) : (x.get ⟨i, hi⟩).fst = i := by
  subst hx
  rw [tagFrom_get_fst]
  omega

/-- C3: in every reachable state of every run, the trace of pairs the
processing thread has enqueued to `processedQueue` carries indices
`0, 1, 2, …` in order — the `i`-th enqueued pair (0-based) has index `i`,
so indices start at zero and are strictly increasing with no gaps. -/
theorem transform_indices_gapless (Frame Detection : Type)
    (d : Detector Frame Detection) (S : List Frame) (ts : List Tid)
    (i : Nat) (hi : i < (run d (initState S) ts).bHist.length) :
    ((run d (initState S) ts).bHist.get ⟨i, hi⟩).fst = i := by
  have hinv := inv_run d S ts (initState S) (inv_initState d S)
  exact get_fst_of_eq_tagFrom _ _ hinv.hhist i hi

/-- Witness for C3: in a concrete complete run the second enqueued pair
carries index 1. -/
theorem transform_indices_gapless_witness :
    ((run dNat (initState [10, 20, 30]) (seqSched 3)).bHist.get
        ⟨1, by decide⟩).fst = 1 :=
  transform_indices_gapless Nat Nat dNat [10, 20, 30] (seqSched 3) 1
    (by decide)

/-- C4: if the source or the sink cannot be opened, `main` returns a
non-zero status and no stage thread is ever started; when the source
fails to open, no frame is read and nothing is written. -/
theorem setup_failure_aborts (Frame Detection : Type)
    (d : Detector Frame Detection) (env : VideoEnv Frame)
    (h : env.sourceOpens = false ∨ env.sinkOpens = false) :
    (runMain d env).exitCode ≠ 0 ∧ (runMain d env).stagesStarted = false ∧
    (env.sourceOpens = false →
      (runMain d env).framesRead = 0 ∧ (runMain d env).sinkWrites = []) := by
  obtain ⟨so, si, frames⟩ := env
  simp only at h
  cases so with
  | false =>
    refine ⟨?_, rfl, fun _ => ⟨rfl, rfl⟩⟩
    simp [runMain]
  | true =>
    cases si with
    | false =>
      refine ⟨?_, rfl, fun hc => absurd hc (by simp)⟩
      simp [runMain]
    | true => simp at h

/-- Witness for C4 at a concrete environment whose source fails to
open. -/
theorem setup_failure_aborts_witness :
    (runMain dNat ⟨false, true, [5]⟩).exitCode ≠ 0 ∧
    (runMain dNat ⟨false, true, [5]⟩).stagesStarted = false ∧
    (runMain dNat ⟨false, true, [5]⟩).framesRead = 0 ∧
    (runMain dNat ⟨false, true, [5]⟩).sinkWrites = [] :=
  ⟨(setup_failure_aborts Nat Nat dNat ⟨false, true, [5]⟩ (Or.inl rfl)).1,
   (setup_failure_aborts Nat Nat dNat ⟨false, true, [5]⟩ (Or.inl rfl)).2.1,
   ((setup_failure_aborts Nat Nat dNat ⟨false, true, [5]⟩ (Or.inl rfl)).2.2
      rfl).1,
   ((setup_failure_aborts Nat Nat dNat ⟨false, true, [5]⟩ (Or.inl rfl)).2.2
      rfl).2⟩

/-- C9: with a source that yields zero frames, any run that can no
longer move has in fact completed: all three threads returned, the
finished latch propagated through both queues, zero frames were written,
and `main` returns status 0 with zero reads and zero writes. -/
theorem empty_source_clean_shutdown (Frame Detection : Type)
    (d : Detector Frame Detection) (ts : List Tid)
    (h : isStuck d (run d (initState ([] : List Frame)) ts) = true) :
    allDone (run d (initState ([] : List Frame)) ts) = true ∧
    (run d (initState ([] : List Frame)) ts).aFin = true ∧
    (run d (initState ([] : List Frame)) ts).bFin = true ∧
    (run d (initState ([] : List Frame)) ts).sink = [] ∧
    runMain d ⟨true, true, []⟩ = ⟨0, 0, [], true⟩ := by
  have hinv := inv_run d [] ts (initState []) (inv_initState d [])
  have hdone := allDone_of_isStuck d [] hinv h
  have hf := finalState_of_allDone d [] hinv hdone
  exact ⟨hdone, hf.2.1, hf.2.2.1, hf.1, rfl⟩

/-- Witness for C9: the concrete canonical schedule on the empty source
reaches a stuck — hence fully completed — state with an empty sink. -/
theorem empty_source_clean_shutdown_witness :
    isStuck dNat (run dNat (initState ([] : List Nat)) (seqSched 0)) = true ∧
    allDone (run dNat (initState ([] : List Nat)) (seqSched 0)) = true ∧
    (run dNat (initState ([] : List Nat)) (seqSched 0)).sink = [] :=
  ⟨by decide,
   (empty_source_clean_shutdown Nat Nat dNat (seqSched 0) (by decide)).1,
   (empty_source_clean_shutdown Nat Nat dNat (seqSched 0) (by decide)).2.2.2.1⟩

end VideoInference

namespace VideoInference

/-! ## The `processingDone` atomic flag (line 130) -/

theorem captureStep_flag {Frame : Type} (st : PState Frame) (b : Bool) :
    captureStep { st with processingDone := b }
      = (captureStep st).map (fun s => { s with processingDone := b }) := by
  obtain ⟨src, capD, aItems, aFin, p, procD, bItems, bFin, bHist, writeD,
    sink, flag⟩ := st
  cases capD <;> cases src <;> rfl

theorem processingStep_flag {Frame Detection : Type}
    (d : Detector Frame Detection) (st : PState Frame) (b : Bool) :
    processingStep d { st with processingDone := b }
      = (processingStep d st).map (fun s => { s with processingDone := b }) := by
  obtain ⟨src, capD, aItems, aFin, p, procD, bItems, bFin, bHist, writeD,
    sink, flag⟩ := st
  cases procD <;> cases aItems <;> cases aFin <;> rfl

theorem writingStep_flag {Frame : Type} (st : PState Frame) (b : Bool) :
    writingStep { st with processingDone := b }
      = (writingStep st).map (fun s => { s with processingDone := b }) := by
  obtain ⟨src, capD, aItems, aFin, p, procD, bItems, bFin, bHist, writeD,
    sink, flag⟩ := st
  cases writeD <;> cases bItems <;> cases bFin <;> rfl

theorem step_flag {Frame Detection : Type} (d : Detector Frame Detection)
    (st : PState Frame) (t : Tid) (b : Bool) :
    step d { st with processingDone := b } t
      = (step d st t).map (fun s => { s with processingDone := b }) := by
  cases t with
  | capture => exact captureStep_flag st b
  | processing => exact processingStep_flag d st b
  | writing => exact writingStep_flag st b

theorem run_flag {Frame Detection : Type} (d : Detector Frame Detection)
    (ts : List Tid) :
    ∀ (st : PState Frame) (b : Bool),
      run d { st with processingDone := b } ts
        = { run d st ts with processingDone := b } := by
  induction ts with
  | nil => intro st b; rfl
  | cons t ts ih =>
    intro st b
    have hrunL : run d { st with processingDone := b } (t :: ts)
        = run d ((step d { st with processingDone := b } t).getD
            { st with processingDone := b }) ts := rfl
    have hrunR : run d st (t :: ts) = run d ((step d st t).getD st) ts := rfl
    rw [hrunL, hrunR, step_flag]
    cases h : step d st t with
    | none => exact ih st b
    | some st' => exact ih st' b

/-- C8 (amended): the atomic `processingDone` flag of line 130 is dead
state — no stage ever writes it (after any run its value is whatever it
was initialised to) and no stage ever reads it (the entire rest of the
state evolves identically whatever its initial value). -/
theorem processingDone_dead_state (Frame Detection : Type)
    (d : Detector Frame Detection) (S : List Frame) (ts : List Tid)
    (b : Bool) :
    run d { initState S with processingDone := b } ts
      = { run d (initState S) ts with processingDone := b } ∧
    (run d { initState S with processingDone := b } ts).processingDone
      = b :=
  ⟨run_flag d ts (initState S) b, by rw [run_flag]⟩

/-- Counterexample to C8 as stated: the flag is never *set* during a
run.  In a complete concrete run (all three threads joined),
`processingDone` still holds `false` — the value it was initialised with
— at every state the run passes through, so no stage ever set it. -/
theorem processingDone_never_set :
    allDone (run dNat (initState [10, 20]) (seqSched 2)) = true ∧
    ((List.range ((seqSched 2).length + 1)).all fun k =>
      !(run dNat (initState [10, 20]) ((seqSched 2).take k)).processingDone)
      = true :=
  ⟨by decide, by decide⟩

end VideoInference
